import Mathlib

/-!
Verification of the request-batching kernels (`batch_kernels.cc`).

A tensor is modelled by its list of dimension-0 rows (`List α` with `α` the
row type), so its "size" (`d₀`) is the list length.  Machine `int`/`int64`
values that are compared but never overflowed are modelled by `Int`; sizes
and counts that are non-negative by construction are modelled by `Nat`.
Fallible code returns `Except ErrCode`.
-/

set_option autoImplicit false

/-- Error codes of the TensorFlow `Status` values that the batching kernels
produce.  Only the code matters to control flow; messages are dropped. -/
inductive ErrCode where
  | invalidArgument
  | internal
  | failedPrecondition
  | alreadyExists
  | deadlineExceeded
  | unknown
deriving DecidableEq, Repr

/-- One `BatchResource::BatchTask`: a (possibly split) slice of one batch-op
invocation.  `inputs` holds one tensor (list of rows) per input edge.
`fromSplit` renders the source field `is_partial`: true iff this task is one
of several splits of a single call; `split_index` is the task's position
among the splits of its call. -/
structure BatchTask (α : Type) where
  guid : Int
  inputs : List (List α)
  split_index : Nat := 0
  fromSplit : Bool := false
deriving Repr

instance {α : Type} : Inhabited (BatchTask α) := ⟨{ guid := 0, inputs := [] }⟩

/-- `BatchTask::size()`: the dimension-0 size of the task's first input. -/
def taskSize {α : Type} (t : BatchTask α) : Nat :=
  (t.inputs.headD []).length

/-- `Batch::size()`: total size of the batch, the sum of its task sizes. -/
def batchSize {α : Type} (tasks : List (BatchTask α)) : Nat :=
  (tasks.map taskSize).sum

/-- The loop body of `BatchResource::RoundToLowestAllowedBatchSize`: return
the first element of `allowed` that is `≥ n`, else fall through to `n`. -/
def roundLoop (n : Int) : List Int → Int
  | [] => n
  | a :: rest => if n ≤ a then a else roundLoop n rest

/-- `BatchResource::RoundToLowestAllowedBatchSize`: if `allowed_batch_sizes_`
is empty return `batch_size` unchanged, otherwise scan the list in order for
the first entry `≥ batch_size`, falling back to `batch_size` (with a logged
warning) when none qualifies. -/
def RoundToLowestAllowedBatchSize (allowed : List Int) (batch_size : Int) : Int :=
  match allowed with
  | [] => batch_size
  | _ => roundLoop batch_size allowed

/-- The row-emitting loop of `BatchResource::EmitIndexTensor`, carrying the
running `offset`: row for task `t` is `(t.guid, offset, offset + t.size())`. -/
def emitIndexRows {α : Type} (offset : Nat) : List (BatchTask α) → List (Int × Nat × Nat)
  | [] => []
  | t :: ts => (t.guid, offset, offset + taskSize t) :: emitIndexRows (offset + taskSize t) ts

/-- `BatchResource::EmitIndexTensor`: the `(num_tasks, 3)` index tensor, one
row `(guid, start_offset, end_offset)` per task, offsets accumulating task
sizes from zero. -/
def EmitIndexTensor {α : Type} (tasks : List (BatchTask α)) : List (Int × Nat × Nat) :=
  emitIndexRows 0 tasks

-- Offset-shift lemma for the emit loop.
theorem emitIndexRows_length {α : Type} (offset : Nat) (tasks : List (BatchTask α)) :
    (emitIndexRows offset tasks).length = tasks.length := by
  induction tasks generalizing offset with
  | nil => rfl
  | cons t ts ih => simp [emitIndexRows, ih]

theorem emitIndexRows_get {α : Type} (offset : Nat) (tasks : List (BatchTask α))
    (i : Nat) (hi : i < tasks.length) :
    (emitIndexRows offset tasks).get ⟨i, by rw [emitIndexRows_length]; exact hi⟩ =
      ((tasks.get ⟨i, hi⟩).guid,
       offset + ((tasks.take i).map taskSize).sum,
       offset + ((tasks.take i).map taskSize).sum + taskSize (tasks.get ⟨i, hi⟩)) := by
  induction tasks generalizing offset i with
  | nil => exact absurd hi (by simp)
  | cons t ts ih =>
    cases i with
    | zero => simp [emitIndexRows]
    | succ j =>
      have hj : j < ts.length := by simpa using hi
      have := ih (offset + taskSize t) j hj
      simp only [emitIndexRows, List.get, List.take, List.map, List.sum_cons]
      rw [this]
      simp only [Prod.mk.injEq, true_and]
      constructor <;> omega

/-- C1: for every non-empty batch processed by `ProcessBatch`,
`EmitIndexTensor` produces an index tensor with one row per task (each row a
triple, i.e. shape `(num_tasks, 3)`), whose row `i` is
`(task_i.guid, start_i, end_i)` where `start_i = Σ_{j<i} task_j.size` and
`end_i = start_i + task_i.size`. -/
theorem claim_C1_emitIndexTensor {α : Type} (tasks : List (BatchTask α)) (hne : tasks ≠ []) :
    (EmitIndexTensor tasks).length = tasks.length ∧
    ∀ i (hi : i < tasks.length),
      (EmitIndexTensor tasks).get ⟨i, by rw [EmitIndexTensor, emitIndexRows_length]; exact hi⟩ =
        ((tasks.get ⟨i, hi⟩).guid,
         ((tasks.take i).map taskSize).sum,
         ((tasks.take i).map taskSize).sum + taskSize (tasks.get ⟨i, hi⟩)) := by
  constructor
  · exact emitIndexRows_length 0 tasks
  · intro i hi
    have h := emitIndexRows_get 0 tasks i hi
    simpa using h

/-- Witness for C1: a concrete two-task batch (sizes 2 and 1) yields rows
`(5, 0, 2)` and `(7, 2, 3)`. -/
theorem claim_C1_emitIndexTensor_witness :
    (EmitIndexTensor [({ guid := 5, inputs := [[1, 2]] } : BatchTask Int),
        { guid := 7, inputs := [[3]] }]).length = 2 ∧
    ∀ i (hi : i < ([({ guid := 5, inputs := [[(1 : Int), 2]] } : BatchTask Int),
        { guid := 7, inputs := [[3]] }]).length),
      ((EmitIndexTensor [({ guid := 5, inputs := [[1, 2]] } : BatchTask Int),
          { guid := 7, inputs := [[3]] }]).get ⟨i, by
            rw [EmitIndexTensor, emitIndexRows_length]; exact hi⟩) =
        ((([({ guid := 5, inputs := [[(1 : Int), 2]] } : BatchTask Int),
            { guid := 7, inputs := [[3]] }]).get ⟨i, hi⟩).guid,
         ((([({ guid := 5, inputs := [[(1 : Int), 2]] } : BatchTask Int),
            { guid := 7, inputs := [[3]] }]).take i).map taskSize).sum,
         ((([({ guid := 5, inputs := [[(1 : Int), 2]] } : BatchTask Int),
            { guid := 7, inputs := [[3]] }]).take i).map taskSize).sum +
           taskSize (([({ guid := 5, inputs := [[(1 : Int), 2]] } : BatchTask Int),
            { guid := 7, inputs := [[3]] }]).get ⟨i, hi⟩)) :=
  claim_C1_emitIndexTensor _ (by simp)

-- The scan loop never returns a value below its argument.
theorem le_roundLoop (n : Int) (l : List Int) : n ≤ roundLoop n l := by
  induction l with
  | nil => simp [roundLoop]
  | cons a rest ih =>
    by_cases h : n ≤ a <;> simp [roundLoop, h, ih]

-- When some element of a pairwise-increasing list is `≥ n`, the loop returns
-- the least element that is `≥ n`.
theorem roundLoop_found (n : Int) (l : List Int) (hp : l.Pairwise (· < ·))
    (a0 : Int) (ha0 : a0 ∈ l) (hle : n ≤ a0) :
    roundLoop n l ∈ l ∧ n ≤ roundLoop n l ∧ ∀ b ∈ l, n ≤ b → roundLoop n l ≤ b := by
  induction l with
  | nil => cases ha0
  | cons a rest ih =>
    rcases List.pairwise_cons.mp hp with ⟨ha, hp'⟩
    by_cases h : n ≤ a
    · refine ⟨by simp [roundLoop, h], by simp [roundLoop, h], ?_⟩
      intro b hb _
      simp only [roundLoop, if_pos h]
      rcases List.mem_cons.mp hb with rfl | hb'
      · exact le_rfl
      · exact le_of_lt (ha b hb')
    · have ha0' : a0 ∈ rest := by
        rcases List.mem_cons.mp ha0 with rfl | h' 
        · exact absurd hle h
        · exact h'
      rcases ih hp' ha0' with ⟨h1, h2, h3⟩
      refine ⟨by simp [roundLoop, h, h1], by simpa [roundLoop, h] using h2, ?_⟩
      intro b hb hnb
      simp only [roundLoop, if_neg h]
      rcases List.mem_cons.mp hb with rfl | hb'
      · exact absurd hnb h
      · exact h3 b hb' hnb

-- When every element is `< n` the loop falls through and returns `n`.
theorem roundLoop_fallthrough (n : Int) (l : List Int) (h : ∀ a ∈ l, a < n) :
    roundLoop n l = n := by
  induction l with
  | nil => rfl
  | cons a rest ih =>
    have hna : ¬ n ≤ a := not_le.mpr (h a (by simp))
    simp only [roundLoop, if_neg hna]
    exact ih (fun b hb => h b (by simp [hb]))

-- In a pairwise-increasing non-empty list, every element is at most the last.
theorem pairwise_le_getLast (l : List Int) (hp : l.Pairwise (· < ·)) (hne : l ≠ []) :
    ∀ a ∈ l, a ≤ l.getLast hne := by
  intro b hb
  have hpos : 0 < l.length := List.length_pos.mpr hne
  rcases List.mem_iff_get.mp hb with ⟨⟨k, hk⟩, rfl⟩
  have hlast : l.getLast hne = l.get ⟨l.length - 1, by omega⟩ :=
    List.getLast_eq_get l hne
  rw [hlast]
  rcases Nat.lt_or_ge k (l.length - 1) with hlt | hge
  · exact le_of_lt (List.pairwise_iff_get.mp hp ⟨k, hk⟩ ⟨l.length - 1, by omega⟩ hlt)
  · have hk1 : k = l.length - 1 := by omega
    subst hk1
    exact le_rfl

/-- C3: for every batch size `n` and non-empty (validated, hence strictly
increasing) `allowed_batch_sizes` list, `RoundToLowestAllowedBatchSize`
returns the smallest allowed entry `≥ n` whenever one exists (i.e. when `n`
does not exceed the largest entry), and returns `n` itself when `n` exceeds
the largest entry. -/
theorem claim_C3_roundToLowestAllowed (allowed : List Int) (n : Int)
    (hne : allowed ≠ []) (hsorted : allowed.Chain' (· < ·)) :
    (n ≤ allowed.getLast hne →
       RoundToLowestAllowedBatchSize allowed n ∈ allowed ∧
       n ≤ RoundToLowestAllowedBatchSize allowed n ∧
       ∀ a ∈ allowed, n ≤ a → RoundToLowestAllowedBatchSize allowed n ≤ a) ∧
    (allowed.getLast hne < n → RoundToLowestAllowedBatchSize allowed n = n) := by
  have hp : allowed.Pairwise (· < ·) := (List.chain'_iff_pairwise).mp hsorted
  have hunfold : RoundToLowestAllowedBatchSize allowed n = roundLoop n allowed := by
    cases allowed with
    | nil => exact absurd rfl hne
    | cons a rest => rfl
  constructor
  · intro hlast
    rw [hunfold]
    exact roundLoop_found n allowed hp _ (List.getLast_mem hne) hlast
  · intro hlast
    rw [hunfold]
    refine roundLoop_fallthrough n allowed (fun a ha => ?_)
    exact lt_of_le_of_lt (pairwise_le_getLast allowed hp hne a ha) hlast

/-- Witness for C3: `allowed = [2, 4]`; batch size 3 rounds up to the least
allowed entry `≥ 3`, and batch size 9 (exceeding the largest entry) is
returned unchanged. -/
theorem claim_C3_roundToLowestAllowed_witness :
    (((3 : Int) ≤ [(2 : Int), 4].getLast (by simp) →
       RoundToLowestAllowedBatchSize [2, 4] 3 ∈ [(2 : Int), 4] ∧
       (3 : Int) ≤ RoundToLowestAllowedBatchSize [2, 4] 3 ∧
       ∀ a ∈ [(2 : Int), 4], 3 ≤ a → RoundToLowestAllowedBatchSize [2, 4] 3 ≤ a) ∧
     ([(2 : Int), 4].getLast (by simp) < 3 →
       RoundToLowestAllowedBatchSize [2, 4] 3 = 3)) ∧
    (((9 : Int) ≤ [(2 : Int), 4].getLast (by simp) →
       RoundToLowestAllowedBatchSize [2, 4] 9 ∈ [(2 : Int), 4] ∧
       (9 : Int) ≤ RoundToLowestAllowedBatchSize [2, 4] 9 ∧
       ∀ a ∈ [(2 : Int), 4], 9 ≤ a → RoundToLowestAllowedBatchSize [2, 4] 9 ≤ a) ∧
     ([(2 : Int), 4].getLast (by simp) < 9 →
       RoundToLowestAllowedBatchSize [2, 4] 9 = 9)) :=
  ⟨claim_C3_roundToLowestAllowed [2, 4] 3 (by simp) (by norm_num [List.chain'_pair]),
   claim_C3_roundToLowestAllowed [2, 4] 9 (by simp) (by norm_num [List.chain'_pair])⟩

-- Re-running the scan loop on its own result is a no-op.
theorem roundLoop_idem (n : Int) (l : List Int) :
    roundLoop (roundLoop n l) l = roundLoop n l := by
  induction l with
  | nil => rfl
  | cons a rest ih =>
    by_cases h : n ≤ a
    · simp [roundLoop, h]
    · have hr : a < n := not_le.mp h
      have hle : n ≤ roundLoop n rest := le_roundLoop n rest
      have h2 : ¬ roundLoop n rest ≤ a := by omega
      simp [roundLoop, h, h2, ih]

/-- C8: for a strictly increasing `allowed_batch_sizes` list, rounding a size
that is already an allowed entry is a no-op, and the rounding function is
idempotent. -/
theorem claim_C8_roundIdempotent (allowed : List Int) (hsorted : allowed.Chain' (· < ·)) :
    (∀ s ∈ allowed, RoundToLowestAllowedBatchSize allowed s = s) ∧
    ∀ n : Int,
      RoundToLowestAllowedBatchSize allowed (RoundToLowestAllowedBatchSize allowed n) =
        RoundToLowestAllowedBatchSize allowed n := by
  have hp := List.chain'_iff_pairwise.mp hsorted
  constructor
  · intro s hs
    have hne : allowed ≠ [] := by rintro rfl; cases hs
    have hunfold : RoundToLowestAllowedBatchSize allowed s = roundLoop s allowed := by
      cases allowed with
      | nil => exact absurd rfl hne
      | cons a rest => rfl
    rw [hunfold]
    rcases roundLoop_found s allowed hp s hs le_rfl with ⟨_, h2, h3⟩
    exact le_antisymm (h3 s hs le_rfl) h2
  · intro n
    cases allowed with
    | nil => rfl
    | cons a rest => exact roundLoop_idem n (a :: rest)

/-- Witness for C8: with `allowed = [2, 4]`, rounding an allowed size is the
identity and rounding is idempotent. -/
theorem claim_C8_roundIdempotent_witness :
    (∀ s ∈ [(2 : Int), 4], RoundToLowestAllowedBatchSize [2, 4] s = s) ∧
    ∀ n : Int,
      RoundToLowestAllowedBatchSize [2, 4] (RoundToLowestAllowedBatchSize [2, 4] n) =
        RoundToLowestAllowedBatchSize [2, 4] n :=
  claim_C8_roundIdempotent [2, 4] (by norm_num [List.chain'_pair])

/-- The validation loop of `BatchFunctionKernel::ValidateAllowedBatchSizes`.
`first` stands for `i == 0` and `rest = []` for `i == allowed.size() - 1`;
`last_size` is the previous entry (initially 0, never read on the first
iteration).  The source raises InvalidArgument either when an entry fails to
increase or when splitting is disabled and the final entry differs from
`max_batch_size`. -/
def validateLoop (maxBS : Int) (splitting : Bool) :
    Bool → Int → List Int → Except ErrCode Unit
  | _, _, [] => .ok ()
  | first, last_size, size :: rest =>
    if first = false ∧ size ≤ last_size then .error .invalidArgument
    else if splitting = false ∧ rest = [] ∧ size ≠ maxBS then .error .invalidArgument
    else validateLoop maxBS splitting false size rest

/-- `BatchFunctionKernel::ValidateAllowedBatchSizes`: the empty list is
accepted immediately; otherwise the loop above runs over the entries. -/
def ValidateAllowedBatchSizes (allowed : List Int) (maxBS : Int) (splitting : Bool) :
    Except ErrCode Unit :=
  match allowed with
  | [] => .ok ()
  | _ => validateLoop maxBS splitting true 0 allowed

/-- The `max_execution_batch_size` computed by `BatchResource::Create` when
`enable_large_batch_splitting` is set: the last allowed entry, or
`max_batch_size` when the allowed list is empty. -/
def createMaxExecutionBatchSize (allowed : List Int) (maxBS : Int) : Int :=
  match allowed.getLast? with
  | none => maxBS
  | some v => v

-- Transfer of the final-entry condition across a cons cell that is not
-- itself a failing final entry.
theorem finalEntryCond_transfer (maxBS size : Int) (splitting : Bool) (rest : List Int)
    (h : ¬(splitting = false ∧ rest = [] ∧ size ≠ maxBS)) :
    ((splitting = false → rest ≠ [] → rest.getLast? = some maxBS) ↔
     (splitting = false → (size :: rest).getLast? = some maxBS)) := by
  cases splitting with
  | true => simp
  | false =>
    cases rest with
    | nil =>
      have hsz : size = maxBS := by
        by_contra hcne
        exact h ⟨rfl, rfl, hcne⟩
      simp [hsz]
    | cons b bs =>
      simp [List.getLast?_cons_cons]

theorem validateLoop_ok_iff (maxBS : Int) (splitting : Bool) (l : List Int) :
    ∀ last : Int,
      validateLoop maxBS splitting false last l = .ok () ↔
        ((last :: l).Chain' (· < ·) ∧
         (splitting = false → l ≠ [] → l.getLast? = some maxBS)) := by
  induction l with
  | nil =>
    intro last
    simp [validateLoop]
  | cons size rest ih =>
    intro last
    by_cases h1 : size ≤ last
    · rw [validateLoop, if_pos (show false = false ∧ size ≤ last from ⟨rfl, h1⟩)]
      simp only [List.chain'_cons]
      constructor
      · intro hcontra; cases hcontra
      · rintro ⟨⟨hlt, _⟩, _⟩; omega
    · by_cases h2 : splitting = false ∧ rest = [] ∧ size ≠ maxBS
      · have hloop : validateLoop maxBS splitting false last (size :: rest) =
            .error .invalidArgument := by
          rw [validateLoop]
          rw [if_neg (by simpa using h1)]
          rw [if_pos h2]
        rw [hloop]
        constructor
        · intro hcontra; cases hcontra
        · rintro ⟨_, hcond⟩
          rcases h2 with ⟨hs, hr, hne⟩
          subst hr
          have := hcond hs (by simp)
          simp at this
          exact absurd this hne
      · have hloop : validateLoop maxBS splitting false last (size :: rest) =
            validateLoop maxBS splitting false size rest := by
          rw [validateLoop]
          rw [if_neg (by simpa using h1)]
          rw [if_neg h2]
        rw [hloop, ih size]
        have htr := finalEntryCond_transfer maxBS size splitting rest h2
        constructor
        · rintro ⟨hch, hc⟩
          refine ⟨List.chain'_cons.mpr ⟨not_le.mp h1, hch⟩, ?_⟩
          intro hs _
          exact htr.mp hc hs
        · rintro ⟨hch, hc⟩
          rcases List.chain'_cons.mp hch with ⟨_, hch'⟩
          refine ⟨hch', ?_⟩
          exact htr.mpr (fun hs => hc hs (by simp))

-- The validation loop only ever answers OK or InvalidArgument.
theorem validateLoop_ok_or_invalid (maxBS : Int) (splitting : Bool) :
    ∀ (l : List Int) (first : Bool) (last : Int),
      validateLoop maxBS splitting first last l = .ok () ∨
      validateLoop maxBS splitting first last l = .error .invalidArgument := by
  intro l
  induction l with
  | nil => intro first last; left; rfl
  | cons size rest ih =>
    intro first last
    rw [validateLoop]
    split
    · right; rfl
    · split
      · right; rfl
      · exact ih false size

/-- C7: validation of `allowed_batch_sizes` accepts the empty list; otherwise
it succeeds iff the list is strictly increasing and, exactly when
`enable_large_batch_splitting` is false, its last entry equals
`max_batch_size`; every rejection is an InvalidArgument; and when splitting
is enabled a non-empty list's last entry becomes `max_execution_batch_size`
in `BatchResource::Create`. -/
theorem claim_C7_validateAllowedBatchSizes (allowed : List Int) (maxBS : Int)
    (splitting : Bool) (hne : allowed ≠ []) :
    (ValidateAllowedBatchSizes [] maxBS splitting = .ok ()) ∧
    (ValidateAllowedBatchSizes allowed maxBS splitting = .ok () ↔
       (allowed.Chain' (· < ·) ∧
        (splitting = false → allowed.getLast? = some maxBS))) ∧
    (ValidateAllowedBatchSizes allowed maxBS splitting = .ok () ∨
       ValidateAllowedBatchSizes allowed maxBS splitting = .error .invalidArgument) ∧
    (splitting = true → createMaxExecutionBatchSize allowed maxBS = allowed.getLast hne) := by
  refine ⟨rfl, ?_, ?_, ?_⟩
  · cases allowed with
    | nil => exact absurd rfl hne
    | cons a rest =>
      have hstep : ValidateAllowedBatchSizes (a :: rest) maxBS splitting =
          if splitting = false ∧ rest = [] ∧ a ≠ maxBS then .error .invalidArgument
          else validateLoop maxBS splitting false a rest := by
        show validateLoop maxBS splitting true 0 (a :: rest) = _
        rw [validateLoop]
        rw [if_neg (by simp)]
      rw [hstep]
      by_cases h2 : splitting = false ∧ rest = [] ∧ a ≠ maxBS
      · rw [if_pos h2]
        constructor
        · intro hcontra; cases hcontra
        · rintro ⟨_, hcond⟩
          rcases h2 with ⟨hs, hr, hna⟩
          subst hr
          have := hcond hs
          simp at this
          exact absurd this hna
      · rw [if_neg h2, validateLoop_ok_iff]
        have htr := finalEntryCond_transfer maxBS a splitting rest h2
        exact ⟨fun h => ⟨h.1, htr.mp h.2⟩, fun h => ⟨h.1, htr.mpr h.2⟩⟩
  · cases allowed with
    | nil => exact absurd rfl hne
    | cons a rest => exact validateLoop_ok_or_invalid maxBS splitting (a :: rest) true 0
  · intro _
    cases allowed with
    | nil => exact absurd rfl hne
    | cons a rest =>
      simp [createMaxExecutionBatchSize, List.getLast?_eq_getLast _ hne]

/-- Witness for C7: `allowed = [2, 4]`, `max_batch_size = 4`, splitting
disabled: validation succeeds and the characterization holds. -/
theorem claim_C7_validateAllowedBatchSizes_witness :
    (ValidateAllowedBatchSizes [] 4 false = .ok ()) ∧
    (ValidateAllowedBatchSizes [2, 4] 4 false = .ok () ↔
       (List.Chain' (· < ·) [(2 : Int), 4] ∧
        (false = false → [(2 : Int), 4].getLast? = some 4))) ∧
    (ValidateAllowedBatchSizes [2, 4] 4 false = .ok () ∨
       ValidateAllowedBatchSizes [2, 4] 4 false = .error .invalidArgument) ∧
    (false = true → createMaxExecutionBatchSize [2, 4] 4 = [(2 : Int), 4].getLast (by simp)) :=
  claim_C7_validateAllowedBatchSizes [2, 4] 4 false (by simp)

/-- The size-chunking loop of `BatchResource::SplitInputTask`:
`for (left = input_task_size - open_batch_remaining_slot; left > 0;
left -= max_batch_size) push_back(min(left, max_batch_size))`.
The `0 < maxBS` part of the guard makes the recursion well-founded; the
source loop does not terminate when `max_batch_size ≤ 0`, and is only run
with a positive maximum. -/
def chunkSizes (maxBS : Nat) (left : Nat) : List Nat :=
  if h : 0 < left ∧ 0 < maxBS then
    min left maxBS :: chunkSizes maxBS (left - maxBS)
  else []
termination_by left
decreasing_by omega

/-- The `output_task_sizes` vector built by `BatchResource::SplitInputTask`:
the open batch's remaining slot first (omitted when zero), then chunks of
the remaining size. -/
def splitInputTaskSizes (openSlot maxBS size : Nat) : List Nat :=
  (if 0 < openSlot then [openSlot] else []) ++ chunkSizes maxBS (size - openSlot)

theorem chunkSizes_sum (maxBS : Nat) (hm : 0 < maxBS) :
    ∀ left, (chunkSizes maxBS left).sum = left := by
  intro left
  induction left using Nat.strong_induction_on with
  | _ left ih =>
    rw [chunkSizes]
    by_cases h : 0 < left ∧ 0 < maxBS
    · rw [dif_pos h, List.sum_cons, ih (left - maxBS) (by omega)]
      omega
    · rw [dif_neg h]
      simp only [List.sum_nil]
      omega

theorem chunkSizes_ne_nil (maxBS left : Nat) (hm : 0 < maxBS) (hl : 0 < left) :
    chunkSizes maxBS left ≠ [] := by
  rw [chunkSizes, dif_pos ⟨hl, hm⟩]
  simp

theorem chunkSizes_pos (maxBS : Nat) (hm : 0 < maxBS) :
    ∀ left, ∀ x ∈ chunkSizes maxBS left, 0 < x := by
  intro left
  induction left using Nat.strong_induction_on with
  | _ left ih =>
    intro x hx
    rw [chunkSizes] at hx
    by_cases h : 0 < left ∧ 0 < maxBS
    · rw [dif_pos h] at hx
      rcases List.mem_cons.mp hx with rfl | hx'
      · omega
      · exact ih (left - maxBS) (by omega) x hx'
    · rw [dif_neg h] at hx
      cases hx

theorem chunkSizes_le (maxBS : Nat) (hm : 0 < maxBS) :
    ∀ left, ∀ x ∈ chunkSizes maxBS left, x ≤ maxBS := by
  intro left
  induction left using Nat.strong_induction_on with
  | _ left ih =>
    intro x hx
    rw [chunkSizes] at hx
    by_cases h : 0 < left ∧ 0 < maxBS
    · rw [dif_pos h] at hx
      rcases List.mem_cons.mp hx with rfl | hx'
      · omega
      · exact ih (left - maxBS) (by omega) x hx'
    · rw [dif_neg h] at hx
      cases hx

-- Every chunk except the final one is a full `max_batch_size` chunk.
theorem chunkSizes_dropLast (maxBS : Nat) (hm : 0 < maxBS) :
    ∀ left, ∀ x ∈ (chunkSizes maxBS left).dropLast, x = maxBS := by
  intro left
  induction left using Nat.strong_induction_on with
  | _ left ih =>
    intro x hx
    rw [chunkSizes] at hx
    by_cases h : 0 < left ∧ 0 < maxBS
    · rw [dif_pos h] at hx
      by_cases h2 : left ≤ maxBS
      · have hz : left - maxBS = 0 := by omega
        rw [hz, chunkSizes] at hx
        rw [dif_neg (by omega)] at hx
        simp at hx
      · have hne := chunkSizes_ne_nil maxBS (left - maxBS) hm (by omega)
        cases htail : chunkSizes maxBS (left - maxBS) with
        | nil => exact absurd htail hne
        | cons b bs =>
          rw [htail] at hx
          rw [List.dropLast_cons₂] at hx
          rcases List.mem_cons.mp hx with rfl | hx'
          · omega
          · rw [← htail] at hx'
            exact ih (left - maxBS) (by omega) x (by rw [htail]; exact htail ▸ hx')
    · rw [dif_neg h] at hx
      cases hx

/-- C4: for an input task whose size exceeds the open batch's remaining
slot (and a positive `max_execution_batch_size`), `SplitInputTask` produces
subtask sizes that sum to the task size, start with `open_batch_remaining_slot`
when it is nonzero (omitting it when zero — all emitted sizes are positive),
have every size between the leading slot entry and the final entry equal to
`max_execution_batch_size`, and end with a size in `(0, max_execution_batch_size]`. -/
theorem claim_C4_splitInputTask (openSlot maxBS size : Nat)
    (hgt : openSlot < size) (hm : 0 < maxBS) :
    (splitInputTaskSizes openSlot maxBS size).sum = size ∧
    (0 < openSlot → (splitInputTaskSizes openSlot maxBS size).head? = some openSlot) ∧
    (∀ x ∈ splitInputTaskSizes openSlot maxBS size, 0 < x) ∧
    (∀ x ∈ ((splitInputTaskSizes openSlot maxBS size).drop
        (if 0 < openSlot then 1 else 0)).dropLast, x = maxBS) ∧
    (∃ lastv, (splitInputTaskSizes openSlot maxBS size).getLast? = some lastv ∧
       0 < lastv ∧ lastv ≤ maxBS) := by
  have hl : 0 < size - openSlot := by omega
  have hcne := chunkSizes_ne_nil maxBS (size - openSlot) hm hl
  constructor
  · rw [splitInputTaskSizes, List.sum_append, chunkSizes_sum maxBS hm]
    by_cases ho : 0 < openSlot
    · rw [if_pos ho]; simp; omega
    · rw [if_neg ho]; simp; omega
  constructor
  · intro ho
    rw [splitInputTaskSizes, if_pos ho]
    rfl
  constructor
  · intro x hx
    rw [splitInputTaskSizes] at hx
    rcases List.mem_append.mp hx with hx' | hx'
    · by_cases ho : 0 < openSlot
      · rw [if_pos ho] at hx'
        rcases List.mem_singleton.mp hx' with rfl
        exact ho
      · rw [if_neg ho] at hx'
        cases hx'
    · exact chunkSizes_pos maxBS hm _ x hx'
  constructor
  · intro x hx
    by_cases ho : 0 < openSlot
    · rw [splitInputTaskSizes, if_pos ho] at hx
      rw [if_pos ho] at hx
      simp only [List.singleton_append, List.drop_succ_cons, List.drop_zero] at hx
      exact chunkSizes_dropLast maxBS hm _ x hx
    · rw [splitInputTaskSizes, if_neg ho] at hx
      rw [if_neg ho] at hx
      simp only [List.nil_append, List.drop_zero] at hx
      exact chunkSizes_dropLast maxBS hm _ x hx
  · have hgl : (splitInputTaskSizes openSlot maxBS size).getLast? =
        (chunkSizes maxBS (size - openSlot)).getLast? := by
      rw [splitInputTaskSizes]
      exact List.getLast?_append_of_ne_nil _ hcne
    rcases List.exists_mem_of_ne_nil _ hcne with ⟨y, _⟩
    have hsome := List.getLast?_eq_getLast_of_ne_nil hcne
    refine ⟨(chunkSizes maxBS (size - openSlot)).getLast hcne, by rw [hgl, hsome], ?_, ?_⟩
    · exact chunkSizes_pos maxBS hm _ _ (List.getLast_mem hcne)
    · exact chunkSizes_le maxBS hm _ _ (List.getLast_mem hcne)

/-- Witness for C4: `open_batch_remaining_slot = 1`,
`max_execution_batch_size = 4`, task size 9: the split sizes are `[1, 4, 4]`. -/
theorem claim_C4_splitInputTask_witness :
    (splitInputTaskSizes 1 4 9).sum = 9 ∧
    (0 < 1 → (splitInputTaskSizes 1 4 9).head? = some 1) ∧
    (∀ x ∈ splitInputTaskSizes 1 4 9, 0 < x) ∧
    (∀ x ∈ ((splitInputTaskSizes 1 4 9).drop (if 0 < 1 then 1 else 0)).dropLast, x = 4) ∧
    (∃ lastv, (splitInputTaskSizes 1 4 9).getLast? = some lastv ∧ 0 < lastv ∧ lastv ≤ 4) :=
  claim_C4_splitInputTask 1 4 9 (by omega) (by omega)

/-- The padding amount of `BatchResource::ConcatInputTensors` /
`SplitOutputTensors`: `RoundToLowestAllowedBatchSize(batch.size()) -
batch.size()` (never negative, since rounding never shrinks). -/
def paddingAmount {α : Type} (allowed : List Int) (tasks : List (BatchTask α)) : Nat :=
  (RoundToLowestAllowedBatchSize allowed (batchSize tasks) - (batchSize tasks : Int)).toNat

/-- One iteration of the per-input-edge loop of
`BatchResource::ConcatInputTensors`: gather task `i`-th inputs in task
order; when padding is required, fail with InvalidArgument if the first
task's tensor has zero rows and otherwise append `pad` copies of its first
row (`Slice(0, 1)`, i.e. `take 1`); concatenate everything. -/
def concatOneEdge {α : Type} (pad : Nat) (t0 : BatchTask α) (tasks : List (BatchTask α))
    (i : Nat) : Except ErrCode (List α) :=
  let to_concat := tasks.map (fun t => t.inputs.getD i [])
  if 0 < pad then
    let src := t0.inputs.getD i []
    if src.length = 0 then .error .invalidArgument
    else .ok ((to_concat ++ List.replicate pad (src.take 1)).flatten)
  else .ok to_concat.flatten

/-- `BatchResource::ConcatInputTensors`: reject an empty batch, compute the
padding amount, then build one concatenated tensor per input edge, stopping
at the first failing edge. -/
def ConcatInputTensors {α : Type} (allowed : List Int) (tasks : List (BatchTask α)) :
    Except ErrCode (List (List α)) :=
  match tasks with
  | [] => .error .invalidArgument
  | t0 :: _ =>
    (List.range t0.inputs.length).mapM
      (fun i => concatOneEdge (paddingAmount allowed tasks) t0 tasks i)

-- `mapM` over `Except` succeeds pointwise.
theorem mapM_eq_map_of_ok {β γ : Type} (f : β → Except ErrCode γ) (g : β → γ) :
    ∀ l : List β, (∀ x ∈ l, f x = .ok (g x)) → l.mapM f = .ok (l.map g) := by
  intro l
  induction l with
  | nil => intro _; rfl
  | cons a rest ih =>
    intro h
    rw [List.mapM_cons, h a (by simp)]
    rw [ih (fun x hx => h x (by simp [hx]))]
    rfl

-- `mapM` over `Except` surfaces the error `e` when some element fails with
-- `e` and no other failure kind occurs.
theorem mapM_eq_error {β γ : Type} (f : β → Except ErrCode γ) (e : ErrCode) :
    ∀ l : List β, (∀ x ∈ l, f x = .error e ∨ ∃ y, f x = .ok y) →
      (∃ x ∈ l, f x = .error e) → l.mapM f = .error e := by
  intro l
  induction l with
  | nil => rintro _ ⟨x, hx, _⟩; cases hx
  | cons a rest ih =>
    rintro hall ⟨x, hx, hxe⟩
    rcases hall a (by simp) with ha | ⟨y, hy⟩
    · rw [List.mapM_cons, ha]; rfl
    · rw [List.mapM_cons, hy]
      have hmem : x ∈ rest := by
        rcases List.mem_cons.mp hx with rfl | h'
        · rw [hy] at hxe; cases hxe
        · exact h'
      rw [ih (fun z hz => hall z (by simp [hz])) ⟨x, hmem, hxe⟩]
      rfl

/-- C6: in `ConcatInputTensors`, when the padded batch size exceeds the
batch size, each input edge's concatenated tensor is the task tensors in
order followed by `padding_amount` copies of the first row of the first
task's tensor for that edge; and if some edge's first-task tensor has zero
rows, the whole batch fails with InvalidArgument. -/
theorem claim_C6_concatInputPadding {α : Type} (allowed : List Int) (t0 : BatchTask α)
    (rest : List (BatchTask α)) (hpad : 0 < paddingAmount allowed (t0 :: rest)) :
    ((∀ i, i < t0.inputs.length → t0.inputs.getD i [] ≠ []) →
       ConcatInputTensors allowed (t0 :: rest) =
         .ok ((List.range t0.inputs.length).map (fun i =>
           ((t0 :: rest).map (fun t => t.inputs.getD i [])).flatten ++
             (List.replicate (paddingAmount allowed (t0 :: rest))
               ((t0.inputs.getD i []).take 1)).flatten))) ∧
    ((∃ i, i < t0.inputs.length ∧ t0.inputs.getD i [] = []) →
       ConcatInputTensors allowed (t0 :: rest) = .error .invalidArgument) := by
  constructor
  · intro hsrc
    rw [ConcatInputTensors]
    refine mapM_eq_map_of_ok _ _ _ (fun i hi => ?_)
    have hilt : i < t0.inputs.length := List.mem_range.mp hi
    have hne := hsrc i hilt
    rw [concatOneEdge]
    simp only [if_pos hpad]
    rw [if_neg (by simpa [List.length_eq_zero] using hne)]
    simp only [List.flatten_append]
  · rintro ⟨i, hilt, hempty⟩
    rw [ConcatInputTensors]
    refine mapM_eq_error _ _ _ (fun j _ => ?_) ⟨i, List.mem_range.mpr hilt, ?_⟩
    · rw [concatOneEdge]
      simp only [if_pos hpad]
      by_cases hj : (t0.inputs.getD j []).length = 0
      · rw [if_pos hj]; exact Or.inl rfl
      · rw [if_neg hj]; exact Or.inr ⟨_, rfl⟩
    · rw [concatOneEdge]
      simp only [if_pos hpad]
      rw [if_pos (by rw [hempty]; rfl)]

/-- Witness for C6: `allowed = [4]`, two tasks of sizes 2 and 1 with one
input edge each: padding is required (pad = 1) and the first task's tensor
is non-empty, so concatenation succeeds with one appended copy of row `10`. -/
theorem claim_C6_concatInputPadding_witness :
    ((∀ i, i < ({ guid := 1, inputs := [[10, 11]] } : BatchTask Int).inputs.length →
        ({ guid := 1, inputs := [[10, 11]] } : BatchTask Int).inputs.getD i [] ≠ []) →
       ConcatInputTensors [4] [({ guid := 1, inputs := [[10, 11]] } : BatchTask Int),
           { guid := 2, inputs := [[12]] }] =
         .ok ((List.range ({ guid := 1, inputs := [[10, 11]] } : BatchTask Int).inputs.length).map
           (fun i =>
           ([({ guid := 1, inputs := [[(10 : Int), 11]] } : BatchTask Int),
               { guid := 2, inputs := [[12]] }].map (fun t => t.inputs.getD i [])).flatten ++
             (List.replicate (paddingAmount [4]
                 [({ guid := 1, inputs := [[(10 : Int), 11]] } : BatchTask Int),
                  { guid := 2, inputs := [[12]] }])
               ((({ guid := 1, inputs := [[(10 : Int), 11]] } : BatchTask Int).inputs.getD
                  i []).take 1)).flatten))) ∧
    ((∃ i, i < ({ guid := 1, inputs := [[(10 : Int), 11]] } : BatchTask Int).inputs.length ∧
        ({ guid := 1, inputs := [[(10 : Int), 11]] } : BatchTask Int).inputs.getD i [] = []) →
       ConcatInputTensors [4] [({ guid := 1, inputs := [[10, 11]] } : BatchTask Int),
           { guid := 2, inputs := [[12]] }] = .error .invalidArgument) :=
  claim_C6_concatInputPadding [4] _ _ (by decide)

/-- The `task_sizes_plus_optional_padding` vector of
`BatchResource::SplitOutputTensors`: the per-task sizes, with the padding
amount appended when it is positive. -/
def taskSizesPlusOptionalPadding {α : Type} (allowed : List Int)
    (tasks : List (BatchTask α)) : List Nat :=
  if 0 < paddingAmount allowed tasks then
    tasks.map taskSize ++ [paddingAmount allowed tasks]
  else
    tasks.map taskSize

/-- C9: with an empty `allowed_batch_sizes` list, rounding is the identity,
so the padding amount used in `ConcatInputTensors` and `SplitOutputTensors`
is zero for every batch: no padding entry is added to the output split sizes
and every concatenated input edge is exactly the task tensors joined, with
no padding rows appended. -/
theorem claim_C9_emptyAllowedNoPadding {α : Type} (n : Int) (tasks : List (BatchTask α)) :
    RoundToLowestAllowedBatchSize [] n = n ∧
    paddingAmount ([] : List Int) tasks = 0 ∧
    taskSizesPlusOptionalPadding ([] : List Int) tasks = tasks.map taskSize ∧
    (tasks ≠ [] →
       ConcatInputTensors ([] : List Int) tasks =
         .ok ((List.range ((tasks.headD default).inputs.length)).map (fun i =>
           (tasks.map (fun t => t.inputs.getD i [])).flatten))) := by
  have hpad : paddingAmount ([] : List Int) tasks = 0 := by
    simp [paddingAmount, RoundToLowestAllowedBatchSize]
  refine ⟨rfl, hpad, ?_, ?_⟩
  · rw [taskSizesPlusOptionalPadding, if_neg (by omega)]
  · intro hne
    cases tasks with
    | nil => exact absurd rfl hne
    | cons t0 rest =>
      rw [ConcatInputTensors]
      refine mapM_eq_map_of_ok _ _ _ (fun i _ => ?_)
      rw [concatOneEdge, if_neg (by rw [hpad]; omega)]

/-- Witness for C9: a concrete batch of two single-edge tasks with empty
allowed sizes: no padding anywhere. -/
theorem claim_C9_emptyAllowedNoPadding_witness :
    RoundToLowestAllowedBatchSize [] 3 = 3 ∧
    paddingAmount ([] : List Int)
      [({ guid := 1, inputs := [[10, 11]] } : BatchTask Int),
       { guid := 2, inputs := [[12]] }] = 0 ∧
    taskSizesPlusOptionalPadding ([] : List Int)
      [({ guid := 1, inputs := [[10, 11]] } : BatchTask Int),
       { guid := 2, inputs := [[12]] }] =
      ([({ guid := 1, inputs := [[(10 : Int), 11]] } : BatchTask Int),
        { guid := 2, inputs := [[12]] }].map taskSize) ∧
    ([({ guid := 1, inputs := [[(10 : Int), 11]] } : BatchTask Int),
        { guid := 2, inputs := [[12]] }] ≠ [] →
       ConcatInputTensors ([] : List Int)
         [({ guid := 1, inputs := [[10, 11]] } : BatchTask Int),
          { guid := 2, inputs := [[12]] }] =
         .ok ((List.range (([({ guid := 1, inputs := [[(10 : Int), 11]] } : BatchTask Int),
             { guid := 2, inputs := [[12]] }].headD default).inputs.length)).map (fun i =>
           ([({ guid := 1, inputs := [[(10 : Int), 11]] } : BatchTask Int),
             { guid := 2, inputs := [[12]] }].map (fun t => t.inputs.getD i [])).flatten))) :=
  claim_C9_emptyAllowedNoPadding 3 _

/-- The loop of `BatchResource::ValidateBatch`: every task must have the
same number of input edges as task 0. -/
def validateBatchLoop {α : Type} (n : Nat) : List (BatchTask α) → Except ErrCode Unit
  | [] => .ok ()
  | t :: ts =>
    if t.inputs.length ≠ n then .error .invalidArgument else validateBatchLoop n ts

/-- `BatchResource::ValidateBatch` (the batch is assumed non-empty by the
source; on an empty batch the loop body never runs and the function returns
OK). -/
def ValidateBatch {α : Type} (tasks : List (BatchTask α)) : Except ErrCode Unit :=
  match tasks with
  | [] => .ok ()
  | t0 :: _ => validateBatchLoop t0.inputs.length tasks

/-- The per-output checks of `BatchResource::SplitOutputTensors`: each
combined output tensor must have dimension-0 size equal to
`batch.size() + padding_size`, else FailedPrecondition.  (The source's
rank-0 check has no counterpart here: a tensor modelled as a row list always
has rank at least 1.  After these checks the source's split into
`task_sizes_plus_optional_padding` pieces always succeeds, so the scatter
loop contributes no further status.) -/
def checkOutputsLoop {α : Type} (expected : Nat) : List (List α) → Except ErrCode Unit
  | [] => .ok ()
  | o :: rest =>
    if o.length ≠ expected then .error .failedPrecondition
    else checkOutputsLoop expected rest

/-- The status computed by `BatchResource::SplitOutputTensors`: an Internal
error on an empty batch or on a combined-output count different from the
caller context's output count; otherwise the per-output shape checks. -/
def SplitOutputTensors {α : Type} (allowed : List Int) (numOutputs : Nat)
    (combined : List (List α)) (tasks : List (BatchTask α)) : Except ErrCode Unit :=
  if tasks.length < 1 then .error .internal
  else if combined.length ≠ numOutputs then .error .internal
  else checkOutputsLoop (batchSize tasks + paddingAmount allowed tasks) combined

/-- Where an exit status of `ProcessFuncBatch` is delivered for one task:
to the shared `ThreadSafeStatus` (split tasks) or to the task's op context. -/
inductive TaskSink where
  | sharedStatus
  | context
deriving DecidableEq, Repr

/-- Observable per-task effects of one `ProcessFuncBatch` run: how many
times the task's `done_callback` ran, where the final status was written,
and that status. -/
structure TaskEffect where
  callback_calls : Nat
  sink : TaskSink
  final_status : Except ErrCode Unit
deriving Repr

/-- The `cleanup_fn` of `BatchResource::ProcessFuncBatch`: for every task of
the batch, write the status (to the shared status when `is_partial`, else to
the context) and invoke the task's `done_callback` once.  The `cleanup_done`
flag in the source makes this run exactly once per batch; each exit path of
`ProcessFuncBatch` below therefore invokes it exactly once. -/
def cleanupEffects {α : Type} (tasks : List (BatchTask α)) (st : Except ErrCode Unit) :
    List TaskEffect :=
  tasks.map (fun t =>
    { callback_calls := 1,
      sink := if t.fromSplit then TaskSink.sharedStatus else TaskSink.context,
      final_status := st })

/-- `BatchResource::ProcessFuncBatch` as a per-task effect function.  An
empty batch returns immediately (no effects).  Otherwise the exit paths are:
validation failure (cleanup via the `finally` guard), concat failure (same),
compute-function failure (cleanup in the run callback with the run status),
and the output-splitting path (cleanup with `SplitOutputTensors`' status,
OK on success).  The compute function itself is external, so its result is
a parameter. -/
def ProcessFuncBatch {α : Type} (allowed : List Int) (tasks : List (BatchTask α))
    (numOutputs : Nat) (runResult : Except ErrCode (List (List α))) : List TaskEffect :=
  if tasks.isEmpty then []
  else
    match ValidateBatch tasks with
    | .error e => cleanupEffects tasks (.error e)
    | .ok _ =>
      match ConcatInputTensors allowed tasks with
      | .error e => cleanupEffects tasks (.error e)
      | .ok _ =>
        match runResult with
        | .error e => cleanupEffects tasks (.error e)
        | .ok combined =>
          cleanupEffects tasks (SplitOutputTensors allowed numOutputs combined tasks)

-- On a non-empty batch, every exit path of `ProcessFuncBatch` runs the
-- cleanup exactly once, with some definite status.
theorem processFuncBatch_eq_cleanup {α : Type} (allowed : List Int)
    (tasks : List (BatchTask α)) (numOutputs : Nat)
    (runResult : Except ErrCode (List (List α))) (hne : tasks ≠ []) :
    ∃ st, ProcessFuncBatch allowed tasks numOutputs runResult = cleanupEffects tasks st := by
  rw [ProcessFuncBatch.eq_def, if_neg (by simpa [List.isEmpty_iff] using hne)]
  cases ValidateBatch tasks with
  | error e => exact ⟨.error e, rfl⟩
  | ok _ =>
    cases ConcatInputTensors allowed tasks with
    | error e => exact ⟨.error e, rfl⟩
    | ok _ =>
      cases runResult with
      | error e => exact ⟨.error e, rfl⟩
      | ok combined => exact ⟨_, rfl⟩

-- Reading one task's delivered status out of a cleanup run.
theorem cleanupEffects_status {α : Type} (tasks : List (BatchTask α))
    (st : Except ErrCode Unit) (i : Nat) (hi : i < tasks.length) :
    ((cleanupEffects tasks st).get? i).map TaskEffect.final_status = some st := by
  rw [cleanupEffects, List.get?_map, List.get?_eq_get hi]
  rfl

-- Exit path 1: a validation failure delivers exactly that error.
theorem processFuncBatch_validate_error {α : Type} (allowed : List Int)
    (tasks : List (BatchTask α)) (numOutputs : Nat)
    (runResult : Except ErrCode (List (List α))) (hne : tasks ≠ [])
    (e : ErrCode) (hv : ValidateBatch tasks = .error e) :
    ProcessFuncBatch allowed tasks numOutputs runResult =
      cleanupEffects tasks (.error e) := by
  rw [ProcessFuncBatch.eq_def, if_neg (by simpa [List.isEmpty_iff] using hne), hv]

-- Exit path 2: a concat failure (validation having passed) delivers exactly
-- that error.
theorem processFuncBatch_concat_error {α : Type} (allowed : List Int)
    (tasks : List (BatchTask α)) (numOutputs : Nat)
    (runResult : Except ErrCode (List (List α))) (hne : tasks ≠ [])
    (e : ErrCode) (hv : ValidateBatch tasks = .ok ())
    (hc : ConcatInputTensors allowed tasks = .error e) :
    ProcessFuncBatch allowed tasks numOutputs runResult =
      cleanupEffects tasks (.error e) := by
  rw [ProcessFuncBatch.eq_def, if_neg (by simpa [List.isEmpty_iff] using hne), hv, hc]

-- Exit path 3: a compute-function failure (validation and concat having
-- passed) delivers exactly the run error.
theorem processFuncBatch_run_error {α : Type} (allowed : List Int)
    (tasks : List (BatchTask α)) (numOutputs : Nat)
    (runResult : Except ErrCode (List (List α))) (hne : tasks ≠ [])
    (e : ErrCode) (hv : ValidateBatch tasks = .ok ())
    (cc : List (List α)) (hc : ConcatInputTensors allowed tasks = .ok cc)
    (hr : runResult = .error e) :
    ProcessFuncBatch allowed tasks numOutputs runResult =
      cleanupEffects tasks (.error e) := by
  rw [ProcessFuncBatch.eq_def, if_neg (by simpa [List.isEmpty_iff] using hne), hv, hc, hr]

-- Exit path 4: on compute success the delivered status is exactly
-- `SplitOutputTensors`' status (OK when the output splitting succeeds).
theorem processFuncBatch_run_ok {α : Type} (allowed : List Int)
    (tasks : List (BatchTask α)) (numOutputs : Nat)
    (runResult : Except ErrCode (List (List α))) (hne : tasks ≠ [])
    (hv : ValidateBatch tasks = .ok ())
    (cc : List (List α)) (hc : ConcatInputTensors allowed tasks = .ok cc)
    (combined : List (List α)) (hr : runResult = .ok combined) :
    ProcessFuncBatch allowed tasks numOutputs runResult =
      cleanupEffects tasks (SplitOutputTensors allowed numOutputs combined tasks) := by
  rw [ProcessFuncBatch.eq_def, if_neg (by simpa [List.isEmpty_iff] using hne), hv, hc, hr]

/-- C2: for every non-empty batch handed to `ProcessFuncBatch` and every
outcome of the external compute function, on every exit path each task's
`done_callback` is invoked exactly once and the status is written to the
task's shared status when the task is partial and to its context otherwise;
moreover the status delivered to every task is exactly the exit path's
status: the validation error, the concatenation error, the compute
function's error, or — on compute success — the output-splitting status. -/
theorem claim_C2_processFuncBatchCallbacks {α : Type} (allowed : List Int)
    (tasks : List (BatchTask α)) (numOutputs : Nat)
    (runResult : Except ErrCode (List (List α))) (hne : tasks ≠ []) :
    (ProcessFuncBatch allowed tasks numOutputs runResult).length = tasks.length ∧
    (∀ i (hi : i < tasks.length),
       ∃ eff : TaskEffect,
         (ProcessFuncBatch allowed tasks numOutputs runResult).get? i = some eff ∧
         eff.callback_calls = 1 ∧
         eff.sink = (if (tasks.get ⟨i, hi⟩).fromSplit then TaskSink.sharedStatus
                     else TaskSink.context)) ∧
    (∀ e : ErrCode, ValidateBatch tasks = .error e →
       ∀ i, i < tasks.length →
         ((ProcessFuncBatch allowed tasks numOutputs runResult).get? i).map
           TaskEffect.final_status = some (.error e)) ∧
    (∀ e : ErrCode, ValidateBatch tasks = .ok () →
       ConcatInputTensors allowed tasks = .error e →
       ∀ i, i < tasks.length →
         ((ProcessFuncBatch allowed tasks numOutputs runResult).get? i).map
           TaskEffect.final_status = some (.error e)) ∧
    (∀ e : ErrCode, ∀ cc : List (List α), ValidateBatch tasks = .ok () →
       ConcatInputTensors allowed tasks = .ok cc →
       runResult = .error e →
       ∀ i, i < tasks.length →
         ((ProcessFuncBatch allowed tasks numOutputs runResult).get? i).map
           TaskEffect.final_status = some (.error e)) ∧
    (∀ combined : List (List α), ∀ cc : List (List α), ValidateBatch tasks = .ok () →
       ConcatInputTensors allowed tasks = .ok cc →
       runResult = .ok combined →
       ∀ i, i < tasks.length →
         ((ProcessFuncBatch allowed tasks numOutputs runResult).get? i).map
           TaskEffect.final_status =
           some (SplitOutputTensors allowed numOutputs combined tasks)) := by
  refine ⟨?_, ?_, ?_, ?_, ?_, ?_⟩
  · rcases processFuncBatch_eq_cleanup allowed tasks numOutputs runResult hne with ⟨st, heq⟩
    rw [heq]
    simp [cleanupEffects]
  · rcases processFuncBatch_eq_cleanup allowed tasks numOutputs runResult hne with ⟨st, heq⟩
    rw [heq]
    intro i hi
    refine ⟨{ callback_calls := 1,
              sink := if (tasks.get ⟨i, hi⟩).fromSplit then TaskSink.sharedStatus
                      else TaskSink.context,
              final_status := st }, ?_, rfl, rfl⟩
    rw [cleanupEffects, List.get?_map, List.get?_eq_get hi]
    rfl
  · intro e hv i hi
    rw [processFuncBatch_validate_error allowed tasks numOutputs runResult hne e hv]
    exact cleanupEffects_status tasks _ i hi
  · intro e hv hc i hi
    rw [processFuncBatch_concat_error allowed tasks numOutputs runResult hne e hv hc]
    exact cleanupEffects_status tasks _ i hi
  · intro e cc hv hc hr i hi
    rw [processFuncBatch_run_error allowed tasks numOutputs runResult hne e hv cc hc hr]
    exact cleanupEffects_status tasks _ i hi
  · intro combined cc hv hc hr i hi
    rw [processFuncBatch_run_ok allowed tasks numOutputs runResult hne hv cc hc combined hr]
    exact cleanupEffects_status tasks _ i hi

/-- A concrete split (partial) task used by witnesses. -/
def exTaskSplit : BatchTask Int :=
  { guid := 1, inputs := [[10]], split_index := 0, fromSplit := true }

/-- A concrete whole (non-split) task used by witnesses. -/
def exTaskWhole : BatchTask Int :=
  { guid := 2, inputs := [[12]] }

/-- Witness for C2: a two-task batch (one split task, one whole task) with a
failing compute function: both callbacks fire exactly once, the split task's
status goes to the shared status cell, the whole task's to its context, and
each error path delivers exactly its error. -/
theorem claim_C2_processFuncBatchCallbacks_witness :
    (ProcessFuncBatch [] [exTaskSplit, exTaskWhole] 1 (.error .unknown)).length =
      [exTaskSplit, exTaskWhole].length ∧
    (∀ i (hi : i < [exTaskSplit, exTaskWhole].length),
       ∃ eff : TaskEffect,
         (ProcessFuncBatch [] [exTaskSplit, exTaskWhole] 1 (.error .unknown)).get? i =
           some eff ∧
         eff.callback_calls = 1 ∧
         eff.sink = (if ([exTaskSplit, exTaskWhole].get ⟨i, hi⟩).fromSplit
           then TaskSink.sharedStatus else TaskSink.context)) ∧
    (∀ e : ErrCode, ValidateBatch [exTaskSplit, exTaskWhole] = .error e →
       ∀ i, i < [exTaskSplit, exTaskWhole].length →
         ((ProcessFuncBatch [] [exTaskSplit, exTaskWhole] 1 (.error .unknown)).get? i).map
           TaskEffect.final_status = some (.error e)) ∧
    (∀ e : ErrCode, ValidateBatch [exTaskSplit, exTaskWhole] = .ok () →
       ConcatInputTensors [] [exTaskSplit, exTaskWhole] = .error e →
       ∀ i, i < [exTaskSplit, exTaskWhole].length →
         ((ProcessFuncBatch [] [exTaskSplit, exTaskWhole] 1 (.error .unknown)).get? i).map
           TaskEffect.final_status = some (.error e)) ∧
    (∀ e : ErrCode, ∀ cc : List (List Int),
       ValidateBatch [exTaskSplit, exTaskWhole] = .ok () →
       ConcatInputTensors [] [exTaskSplit, exTaskWhole] = .ok cc →
       (Except.error .unknown : Except ErrCode (List (List Int))) = .error e →
       ∀ i, i < [exTaskSplit, exTaskWhole].length →
         ((ProcessFuncBatch [] [exTaskSplit, exTaskWhole] 1 (.error .unknown)).get? i).map
           TaskEffect.final_status = some (.error e)) ∧
    (∀ combined : List (List Int), ∀ cc : List (List Int),
       ValidateBatch [exTaskSplit, exTaskWhole] = .ok () →
       ConcatInputTensors [] [exTaskSplit, exTaskWhole] = .ok cc →
       (Except.error .unknown : Except ErrCode (List (List Int))) = .ok combined →
       ∀ i, i < [exTaskSplit, exTaskWhole].length →
         ((ProcessFuncBatch [] [exTaskSplit, exTaskWhole] 1 (.error .unknown)).get? i).map
           TaskEffect.final_status =
           some (SplitOutputTensors [] 1 combined [exTaskSplit, exTaskWhole])) :=
  claim_C2_processFuncBatchCallbacks [] [exTaskSplit, exTaskWhole] 1 (.error .unknown)
    (by simp)

/-- Keys of an association list (models the key set of an
`std::unordered_map<int64, V>`). -/
def alKeys {β : Type} (l : List (Int × β)) : List Int := l.map Prod.fst

/-- `map.find(k)` on an association list. -/
def alLookup {β : Type} (l : List (Int × β)) (k : Int) : Option β :=
  match l with
  | [] => none
  | (k', v) :: rest => if k' = k then some v else alLookup rest k

/-- `map.erase(k)` on an association list (first occurrence; with no
duplicate keys this is exactly map erasure). -/
def alErase {β : Type} (l : List (Int × β)) (k : Int) : List (Int × β) :=
  match l with
  | [] => []
  | (k', v) :: rest => if k' = k then rest else (k', v) :: alErase rest k

/-- `map.emplace(k, v)`: `none` exactly when the key is already present
(the source treats that as a failed insertion), otherwise the extended map. -/
def alInsertNew {β : Type} (l : List (Int × β)) (k : Int) (v : β) :
    Option (List (Int × β)) :=
  if k ∈ alKeys l then none else some (l ++ [(k, v)])

theorem alErase_keys_subset {β : Type} (l : List (Int × β)) (k k' : Int)
    (h : k' ∈ alKeys (alErase l k)) : k' ∈ alKeys l := by
  induction l with
  | nil => exact h
  | cons e rest ih =>
    obtain ⟨ke, ve⟩ := e
    rw [alErase] at h
    by_cases hk : ke = k
    · rw [if_pos hk] at h
      exact List.mem_cons.mpr (Or.inr h)
    · rw [if_neg hk] at h
      rcases List.mem_cons.mp h with h' | h'
      · exact List.mem_cons.mpr (Or.inl h')
      · exact List.mem_cons.mpr (Or.inr (ih h'))

theorem alErase_keys_nodup {β : Type} (l : List (Int × β)) (k : Int)
    (h : (alKeys l).Nodup) : (alKeys (alErase l k)).Nodup := by
  induction l with
  | nil => exact h
  | cons e rest ih =>
    obtain ⟨ke, ve⟩ := e
    rw [alKeys, List.map_cons, List.nodup_cons] at h
    rw [alErase]
    by_cases hk : ke = k
    · rw [if_pos hk]
      exact h.2
    · rw [if_neg hk]
      rw [alKeys, List.map_cons, List.nodup_cons]
      exact ⟨fun hmem => h.1 (alErase_keys_subset rest k ke hmem), ih h.2⟩

theorem alErase_not_mem {β : Type} (l : List (Int × β)) (k : Int)
    (h : (alKeys l).Nodup) : k ∉ alKeys (alErase l k) := by
  induction l with
  | nil => simp [alErase, alKeys]
  | cons e rest ih =>
    obtain ⟨ke, ve⟩ := e
    rw [alKeys, List.map_cons, List.nodup_cons] at h
    rw [alErase]
    by_cases hk : ke = k
    · rw [if_pos hk]
      subst hk
      exact h.1
    · rw [if_neg hk]
      rw [alKeys, List.map_cons, List.mem_cons]
      rintro (rfl | hmem)
      · exact hk rfl
      · exact ih h.2 hmem

theorem alInsertNew_some {β : Type} (l : List (Int × β)) (k : Int) (v : β)
    (l' : List (Int × β)) (h : alInsertNew l k v = some l') :
    k ∉ alKeys l ∧ alKeys l' = alKeys l ++ [k] := by
  rw [alInsertNew] at h
  by_cases hk : k ∈ alKeys l
  · rw [if_pos hk] at h; cases h
  · rw [if_neg hk] at h
    refine ⟨hk, ?_⟩
    cases h
    simp [alKeys]

theorem alInsertNew_none {β : Type} (l : List (Int × β)) (k : Int) (v : β)
    (h : alInsertNew l k v = none) : k ∈ alKeys l := by
  rw [alInsertNew] at h
  by_cases hk : k ∈ alKeys l
  · exact hk
  · rw [if_neg hk] at h; cases h

/-- The state of `UnbatchResource`: `waiting_tensors_` maps a batch key to
its deadline and stored tensor slice; `waiting_callbacks_` maps a batch key
to its deadline (the stored context and done callback live outside the
model). -/
structure UnbatchState (T : Type) where
  waiting_tensors : List (Int × (Nat × T))
  waiting_callbacks : List (Int × Nat)

/-- The two maps start empty. -/
def unbatchInit {T : Type} : UnbatchState T := ⟨[], []⟩

/-- Well-formedness of the `UnbatchResource` maps: no duplicate keys within
either map, and no key present in both maps at once (the invariant of
claim C5). -/
def UnbatchWF {T : Type} (s : UnbatchState T) : Prop :=
  (alKeys s.waiting_tensors).Nodup ∧
  (alKeys s.waiting_callbacks).Nodup ∧
  ∀ k ∈ alKeys s.waiting_tensors, k ∉ alKeys s.waiting_callbacks

instance {T : Type} (s : UnbatchState T) : Decidable (UnbatchWF s) := by
  unfold UnbatchWF
  infer_instance

/-- The per-row loop of `UnbatchResource::Compute` over the index-tensor
rows `(key, slice)`: a waiting callback for the key is completed and erased
(its key is recorded as fired), otherwise the slice is stored in
`waiting_tensors_`, and a duplicate store is an AlreadyExists error that
aborts the loop with the mutations made so far kept. -/
def unbatchComputeLoop {T : Type} (deadline : Nat) :
    UnbatchState T → List (Int × T) → UnbatchState T × List Int × Option ErrCode
  | s, [] => (s, [], none)
  | s, (k, t) :: rest =>
    if k ∈ alKeys s.waiting_callbacks then
      let s' : UnbatchState T := { s with waiting_callbacks := alErase s.waiting_callbacks k }
      let r := unbatchComputeLoop deadline s' rest
      (r.1, k :: r.2.1, r.2.2)
    else
      match alInsertNew s.waiting_tensors k (deadline, t) with
      | none => (s, [], some ErrCode.alreadyExists)
      | some wt => unbatchComputeLoop deadline { s with waiting_tensors := wt } rest

/-- `UnbatchResource::Compute` (the critical section): if the caller's
tensor is already waiting, take it and erase the entry (an immediate
rendezvous, the caller's key is fired); otherwise register the caller in
`waiting_callbacks_` (duplicate: AlreadyExists) and process the index rows.
Returns the new state, the keys whose callbacks fired, and the status. -/
def UnbatchCompute {T : Type} (s : UnbatchState T) (batch_key : Int)
    (rows : List (Int × T)) (deadline : Nat) :
    UnbatchState T × List Int × Option ErrCode :=
  if batch_key ∈ alKeys s.waiting_tensors then
    ({ s with waiting_tensors := alErase s.waiting_tensors batch_key },
     [batch_key], none)
  else
    match alInsertNew s.waiting_callbacks batch_key deadline with
    | none => (s, [], some ErrCode.alreadyExists)
    | some wc => unbatchComputeLoop deadline { s with waiting_callbacks := wc } rows

/-- `UnbatchResource::EnforceTimeout`: erase expired waiting tensors, and
move expired waiting callbacks out (each will be failed with
DeadlineExceeded and fired outside the lock). -/
def UnbatchEnforceTimeout {T : Type} (s : UnbatchState T) (now : Nat) :
    UnbatchState T × List Int :=
  ({ waiting_tensors := s.waiting_tensors.filter (fun e => !decide (e.2.1 < now)),
     waiting_callbacks := s.waiting_callbacks.filter (fun e => !decide (e.2 < now)) },
   alKeys (s.waiting_callbacks.filter (fun e => decide (e.2 < now))))

/-- One serialized operation on the `UnbatchResource` state. -/
inductive UnbatchStep (T : Type) where
  | compute (batch_key : Int) (rows : List (Int × T)) (deadline : Nat)
  | timeout (now : Nat)

/-- State after one step (results to callers are not part of the state). -/
def unbatchApply {T : Type} (s : UnbatchState T) : UnbatchStep T → UnbatchState T
  | .compute k rows d => (UnbatchCompute s k rows d).1
  | .timeout now => (UnbatchEnforceTimeout s now).1

/-- State after a sequence of operations starting from the empty maps. -/
def unbatchRun {T : Type} (steps : List (UnbatchStep T)) : UnbatchState T :=
  steps.foldl unbatchApply unbatchInit

-- Erasing a callback entry preserves well-formedness.
theorem UnbatchWF_erase_callbacks {T : Type} (s : UnbatchState T) (k : Int)
    (h : UnbatchWF s) :
    UnbatchWF { s with waiting_callbacks := alErase s.waiting_callbacks k } :=
  ⟨h.1, alErase_keys_nodup _ _ h.2.1,
   fun k' hk' hmem => h.2.2 k' hk' (alErase_keys_subset _ _ _ hmem)⟩

-- Erasing a tensor entry preserves well-formedness.
theorem UnbatchWF_erase_tensors {T : Type} (s : UnbatchState T) (k : Int)
    (h : UnbatchWF s) :
    UnbatchWF { s with waiting_tensors := alErase s.waiting_tensors k } :=
  ⟨alErase_keys_nodup _ _ h.1, h.2.1,
   fun k' hk' => h.2.2 k' (alErase_keys_subset _ _ _ hk')⟩

-- A successful tensor insertion whose key is not a waiting callback
-- preserves well-formedness.
theorem UnbatchWF_insert_tensors {T : Type} (s : UnbatchState T) (k : Int)
    (v : Nat × T) (wt : List (Int × (Nat × T)))
    (hins : alInsertNew s.waiting_tensors k v = some wt)
    (hcb : k ∉ alKeys s.waiting_callbacks) (h : UnbatchWF s) :
    UnbatchWF { s with waiting_tensors := wt } := by
  rcases alInsertNew_some _ _ _ _ hins with ⟨hnotin, hkeys⟩
  refine ⟨?_, h.2.1, ?_⟩
  · rw [hkeys, List.nodup_append]
    refine ⟨h.1, List.nodup_singleton _, ?_⟩
    intro a ha hb
    rcases List.mem_singleton.mp hb with rfl
    exact hnotin ha
  · intro k' hk'
    rw [hkeys, List.mem_append] at hk'
    rcases hk' with h' | h'
    · exact h.2.2 k' h'
    · rcases List.mem_singleton.mp h' with rfl
      exact hcb

-- A successful callback insertion whose key is not a waiting tensor
-- preserves well-formedness.
theorem UnbatchWF_insert_callbacks {T : Type} (s : UnbatchState T) (k : Int)
    (d : Nat) (wc : List (Int × Nat))
    (hins : alInsertNew s.waiting_callbacks k d = some wc)
    (hwt : k ∉ alKeys s.waiting_tensors) (h : UnbatchWF s) :
    UnbatchWF { s with waiting_callbacks := wc } := by
  rcases alInsertNew_some _ _ _ _ hins with ⟨hnotin, hkeys⟩
  refine ⟨h.1, ?_, ?_⟩
  · rw [hkeys, List.nodup_append]
    refine ⟨h.2.1, List.nodup_singleton _, ?_⟩
    intro a ha hb
    rcases List.mem_singleton.mp hb with rfl
    exact hnotin ha
  · intro k' hk'
    rw [hkeys, List.mem_append]
    rintro (h' | h')
    · exact h.2.2 k' hk' h'
    · rcases List.mem_singleton.mp h' with rfl
      exact hwt hk'

theorem alKeys_filter_sublist {β : Type} (l : List (Int × β)) (p : Int × β → Bool) :
    (alKeys (l.filter p)).Sublist (alKeys l) :=
  (List.filter_sublist l).map Prod.fst

-- The row loop preserves well-formedness.
theorem unbatchComputeLoop_WF {T : Type} (d : Nat) :
    ∀ (rows : List (Int × T)) (s : UnbatchState T), UnbatchWF s →
      UnbatchWF (unbatchComputeLoop d s rows).1 := by
  intro rows
  induction rows with
  | nil => intro s h; exact h
  | cons e rest ih =>
    obtain ⟨k, t⟩ := e
    intro s h
    rw [unbatchComputeLoop]
    by_cases hk : k ∈ alKeys s.waiting_callbacks
    · rw [if_pos hk]
      exact ih _ (UnbatchWF_erase_callbacks s k h)
    · rw [if_neg hk]
      cases hins : alInsertNew s.waiting_tensors k (d, t) with
      | none => exact h
      | some wt => exact ih _ (UnbatchWF_insert_tensors s k (d, t) wt hins hk h)

-- One `Compute` call preserves well-formedness.
theorem unbatchCompute_WF {T : Type} (s : UnbatchState T) (k : Int)
    (rows : List (Int × T)) (d : Nat) (h : UnbatchWF s) :
    UnbatchWF (UnbatchCompute s k rows d).1 := by
  rw [UnbatchCompute]
  by_cases hk : k ∈ alKeys s.waiting_tensors
  · rw [if_pos hk]
    exact UnbatchWF_erase_tensors s k h
  · rw [if_neg hk]
    cases hins : alInsertNew s.waiting_callbacks k d with
    | none => exact h
    | some wc =>
      exact unbatchComputeLoop_WF d rows _ (UnbatchWF_insert_callbacks s k d wc hins hk h)

-- One `EnforceTimeout` tick preserves well-formedness.
theorem unbatchTimeout_WF {T : Type} (s : UnbatchState T) (now : Nat)
    (h : UnbatchWF s) : UnbatchWF (UnbatchEnforceTimeout s now).1 := by
  refine ⟨(alKeys_filter_sublist _ _).nodup h.1,
          (alKeys_filter_sublist _ _).nodup h.2.1, ?_⟩
  intro k hk hmem
  exact h.2.2 k ((alKeys_filter_sublist _ _).subset hk)
    ((alKeys_filter_sublist _ _).subset hmem)

-- Any step sequence from a well-formed state stays well-formed.
theorem unbatchFoldl_WF {T : Type} :
    ∀ (steps : List (UnbatchStep T)) (s : UnbatchState T), UnbatchWF s →
      UnbatchWF (steps.foldl unbatchApply s) := by
  intro steps
  induction steps with
  | nil => intro s h; exact h
  | cons st rest ih =>
    intro s h
    rw [List.foldl_cons]
    refine ih _ ?_
    cases st with
    | compute k rows d => exact unbatchCompute_WF s k rows d h
    | timeout now => exact unbatchTimeout_WF s now h

-- A key absent from both maps and from the remaining rows stays absent
-- through the row loop.
theorem unbatchComputeLoop_absent {T : Type} (d : Nat) :
    ∀ (rows : List (Int × T)) (s : UnbatchState T) (k : Int),
      k ∉ rows.map Prod.fst →
      k ∉ alKeys s.waiting_tensors → k ∉ alKeys s.waiting_callbacks →
      k ∉ alKeys (unbatchComputeLoop d s rows).1.waiting_tensors ∧
      k ∉ alKeys (unbatchComputeLoop d s rows).1.waiting_callbacks := by
  intro rows
  induction rows with
  | nil => intro s k _ h1 h2; exact ⟨h1, h2⟩
  | cons e rest ih =>
    obtain ⟨k0, t⟩ := e
    intro s k hrow h1 h2
    rw [List.map_cons, List.mem_cons, not_or] at hrow
    rw [unbatchComputeLoop]
    by_cases hk : k0 ∈ alKeys s.waiting_callbacks
    · rw [if_pos hk]
      refine ih _ k hrow.2 h1 ?_
      intro hmem
      exact h2 (alErase_keys_subset _ _ _ hmem)
    · rw [if_neg hk]
      cases hins : alInsertNew s.waiting_tensors k0 (d, t) with
      | none => exact ⟨h1, h2⟩
      | some wt =>
        refine ih _ k hrow.2 ?_ h2
        rcases alInsertNew_some _ _ _ _ hins with ⟨_, hkeys⟩
        show k ∉ alKeys wt
        rw [hkeys, List.mem_append]
        rintro (h' | h')
        · exact h1 h'
        · exact hrow.1 (List.mem_singleton.mp h')

-- Every key fired by the row loop is in neither map afterwards (given
-- distinct row keys).
theorem unbatchComputeLoop_fired {T : Type} (d : Nat) :
    ∀ (rows : List (Int × T)) (s : UnbatchState T), UnbatchWF s →
      (rows.map Prod.fst).Nodup →
      ∀ k ∈ (unbatchComputeLoop d s rows).2.1,
        k ∉ alKeys (unbatchComputeLoop d s rows).1.waiting_tensors ∧
        k ∉ alKeys (unbatchComputeLoop d s rows).1.waiting_callbacks := by
  intro rows
  induction rows with
  | nil => intro s _ _ k hk; cases hk
  | cons e rest ih =>
    obtain ⟨k0, t⟩ := e
    intro s hWF hnd k hk
    rw [List.map_cons, List.nodup_cons] at hnd
    rw [unbatchComputeLoop] at hk ⊢
    by_cases hcb : k0 ∈ alKeys s.waiting_callbacks
    · rw [if_pos hcb] at hk ⊢
      have hWF' := UnbatchWF_erase_callbacks s k0 hWF
      rcases List.mem_cons.mp hk with rfl | hk'
      · refine unbatchComputeLoop_absent d rest _ k hnd.1 ?_ ?_
        · intro hmem
          exact hWF.2.2 k hmem hcb
        · exact alErase_not_mem _ _ hWF.2.1
      · exact ih _ hWF' hnd.2 k hk'
    · rw [if_neg hcb] at hk ⊢
      cases hins : alInsertNew s.waiting_tensors k0 (d, t) with
      | none =>
        rw [hins] at hk
        cases hk
      | some wt =>
        rw [hins] at hk
        exact ih _ (UnbatchWF_insert_tensors s k0 (d, t) wt hins hcb hWF) hnd.2 k hk

-- Every key fired by one `Compute` call, including an immediate rendezvous
-- on the caller's own key, is in neither map afterwards.
theorem unbatchCompute_fired {T : Type} (s : UnbatchState T) (bk : Int)
    (rows : List (Int × T)) (d : Nat) (hWF : UnbatchWF s)
    (hnd : (rows.map Prod.fst).Nodup) :
    ∀ k ∈ (UnbatchCompute s bk rows d).2.1,
      k ∉ alKeys (UnbatchCompute s bk rows d).1.waiting_tensors ∧
      k ∉ alKeys (UnbatchCompute s bk rows d).1.waiting_callbacks := by
  intro k hk
  rw [UnbatchCompute] at hk ⊢
  by_cases hbk : bk ∈ alKeys s.waiting_tensors
  · rw [if_pos hbk] at hk ⊢
    rcases List.mem_singleton.mp hk with rfl
    exact ⟨alErase_not_mem _ _ hWF.1, hWF.2.2 k hbk⟩
  · rw [if_neg hbk] at hk ⊢
    cases hins : alInsertNew s.waiting_callbacks bk d with
    | none =>
      rw [hins] at hk
      cases hk
    | some wc =>
      rw [hins] at hk
      exact unbatchComputeLoop_fired d rows _
        (UnbatchWF_insert_callbacks s bk d wc hins hbk hWF) hnd k hk

/-- C5: starting from the empty maps, after any sequence of
`UnbatchResource::Compute` and `EnforceTimeout` operations every batch key
is present in at most one of `waiting_tensors_` and `waiting_callbacks_`
(and neither map has duplicate keys); and every key on which a `Compute`
call from a well-formed state achieves a rendezvous — the caller finding
its waiting tensor, or an index row completing a waiting callback (row keys
distinct) — is contained in neither map afterwards. -/
theorem claim_C5_unbatchKeyInvariant (T : Type) (steps : List (UnbatchStep T))
    (s : UnbatchState T) (batch_key : Int) (rows : List (Int × T)) (deadline : Nat)
    (hWF : UnbatchWF s) (hnd : (rows.map Prod.fst).Nodup) :
    UnbatchWF (unbatchRun steps) ∧
    ∀ k ∈ (UnbatchCompute s batch_key rows deadline).2.1,
      k ∉ alKeys (UnbatchCompute s batch_key rows deadline).1.waiting_tensors ∧
      k ∉ alKeys (UnbatchCompute s batch_key rows deadline).1.waiting_callbacks := by
  constructor
  · refine unbatchFoldl_WF steps unbatchInit ?_
    refine ⟨?_, ?_, ?_⟩ <;> simp [unbatchInit, alKeys]
  · exact unbatchCompute_fired s batch_key rows deadline hWF hnd

/-- Witness for C5: a short concrete run (a compute then a timeout tick)
stays well-formed, and a compute on key 1 with a stored tensor for key 1
rendezvouses and leaves key 1 in neither map. -/
theorem claim_C5_unbatchKeyInvariant_witness :
    UnbatchWF (unbatchRun [UnbatchStep.compute (1 : Int) [((2 : Int), (10 : Int))] 5,
        UnbatchStep.timeout 7]) ∧
    ∀ k ∈ (UnbatchCompute (⟨[(1, (5, 42))], []⟩ : UnbatchState Int) 1 [(2, 10)] 6).2.1,
      k ∉ alKeys (UnbatchCompute (⟨[(1, (5, 42))], []⟩ : UnbatchState Int) 1
        [(2, 10)] 6).1.waiting_tensors ∧
      k ∉ alKeys (UnbatchCompute (⟨[(1, (5, 42))], []⟩ : UnbatchState Int) 1
        [(2, 10)] 6).1.waiting_callbacks :=
  claim_C5_unbatchKeyInvariant Int
    [UnbatchStep.compute 1 [(2, 10)] 5, UnbatchStep.timeout 7]
    ⟨[(1, (5, 42))], []⟩ 1 [(2, 10)] 6
    (by refine ⟨?_, ?_, ?_⟩ <;> simp [alKeys]) (by simp)

theorem alLookup_none_iff {β : Type} (l : List (Int × β)) (k : Int) :
    alLookup l k = none ↔ k ∉ alKeys l := by
  induction l with
  | nil => simp [alLookup, alKeys]
  | cons e rest ih =>
    obtain ⟨k', v⟩ := e
    rw [alLookup, alKeys, List.map_cons, List.mem_cons]
    by_cases hk : k' = k
    · subst hk
      simp
    · rw [if_neg hk, ih, alKeys]
      constructor
      · rintro h (rfl | h')
        · exact hk rfl
        · exact h h'
      · intro h h'
        exact h (Or.inr h')

theorem alLookup_append_self {β : Type} (l : List (Int × β)) (k : Int) (v : β)
    (h : k ∉ alKeys l) : alLookup (l ++ [(k, v)]) k = some v := by
  induction l with
  | nil => simp [alLookup]
  | cons e rest ih =>
    obtain ⟨k', v'⟩ := e
    rw [alKeys, List.map_cons, List.mem_cons, not_or] at h
    rw [List.cons_append, alLookup, if_neg (fun he => h.1 he.symm)]
    exact ih h.2

/-- A still-incomplete gradient batch of `UnbatchGradResource`
(`UnbatchGradResource::Batch`): the keys still missing, and the batch-index
keys of the owning caller's context (its input 1), in row order, which
`OutputBatch` re-reads to assemble the output. -/
structure GradBatch where
  missing_tensors : List Int
  index_keys : List Int

/-- State of `UnbatchGradResource`: arrived gradient slices by key,
incomplete batches by the owning caller's key, and the inverse index from a
missing slice key to the batch awaiting it. -/
structure UnbatchGradState (T : Type) where
  available_tensors : List (Int × T)
  available_batches : List (Int × GradBatch)
  desired_tensor_to_batch_map : List (Int × Int)

/-- `UnbatchGradResource::OutputBatch`'s collection loop: look up each
batch-index key in `available_tensors_` (a missing key is an Internal
error; lookups already consumed stay consumed), erase it, and collect the
tensors in row order (the source then concatenates them, sets the output
and fires `done`). -/
def OutputBatch {T : Type} (avail : List (Int × T)) :
    List Int → List (Int × T) × Except ErrCode (List T)
  | [] => (avail, .ok [])
  | k :: ks =>
    match alLookup avail k with
    | none => (avail, .error .internal)
    | some t =>
      let r := OutputBatch (alErase avail k) ks
      (r.1, match r.2 with
            | .error e => .error e
            | .ok ts => .ok (t :: ts))

/-- Replacement of the value stored under a key (in-place mutation of a map
entry through its iterator). -/
def alUpdate {β : Type} (l : List (Int × β)) (k : Int) (v : β) : List (Int × β) :=
  l.map (fun e => if e.1 = k then (k, v) else e)

/-- The loop inserting `desired_tensor_to_batch_map_[k] = batch_key` for
every missing key; a duplicate is an InvalidArgument ("missing tensor
wanted by more than one batch"), with the earlier insertions kept. -/
def insertDesiredAll (dm : List (Int × Int)) (ks : List Int) (owner : Int) :
    List (Int × Int) × Option ErrCode :=
  match ks with
  | [] => (dm, none)
  | k :: rest =>
    match alInsertNew dm k owner with
    | none => (dm, some ErrCode.invalidArgument)
    | some dm' => insertDesiredAll dm' rest owner

/-- The tail of `UnbatchGradResource::Compute`: look up whether this call's
key is desired by a pending batch; if so erase the desire, drop the key
from that batch's missing set (a vanished batch is "Batch no longer
exists", InvalidArgument), and when the batch becomes complete emit it via
`OutputBatch` and erase it. -/
def gradFinish {T : Type} (s : UnbatchGradState T) (batch_key : Int) :
    UnbatchGradState T × Except ErrCode Unit :=
  match alLookup s.desired_tensor_to_batch_map batch_key with
  | none => (s, .ok ())
  | some owner =>
    let s1 := { s with desired_tensor_to_batch_map := alErase s.desired_tensor_to_batch_map batch_key }
    match alLookup s1.available_batches owner with
    | none => (s1, .error .invalidArgument)
    | some b =>
      let b' : GradBatch :=
        ⟨b.missing_tensors.filter (fun k => k != batch_key), b.index_keys⟩
      let s2 := { s1 with available_batches := alUpdate s1.available_batches owner b' }
      if b'.missing_tensors = [] then
        let r := OutputBatch s2.available_tensors b.index_keys
        match r.2 with
        | .error e => ({ s2 with available_tensors := r.1 }, .error e)
        | .ok _ =>
          let s3 := { s2 with available_tensors := r.1 }
          ({ s3 with available_batches := alErase s3.available_batches owner }, .ok ())
      else (s2, .ok ())

/-- `UnbatchGradResource::Compute`: record the caller's `grad` under its
`batch_key` (duplicate: InvalidArgument); when `data` is non-empty, an
empty `batch_index` is an InvalidArgument, a batch with nothing missing is
emitted immediately, and otherwise the pending batch and its desires are
registered; when `data` is empty an empty output is emitted immediately;
finally the call's own key may complete another pending batch.  `data` and
`grad` enter only via emptiness and the stored value, so `data` is modelled
by its emptiness flag and `batch_index` by its key column. -/
def UnbatchGradCompute {T : Type} (s : UnbatchGradState T) (dataNonempty : Bool)
    (indexKeys : List Int) (grad : T) (batch_key : Int) :
    UnbatchGradState T × Except ErrCode Unit :=
  match alInsertNew s.available_tensors batch_key grad with
  | none => (s, .error .invalidArgument)
  | some avail1 =>
    let s1 := { s with available_tensors := avail1 }
    if dataNonempty then
      if indexKeys = [] then (s1, .error .invalidArgument)
      else
        let missing :=
          (indexKeys.filter (fun k => (alLookup s1.available_tensors k).isNone)).dedup
        if missing = [] then
          let r := OutputBatch s1.available_tensors indexKeys
          ({ s1 with available_tensors := r.1 },
           match r.2 with
           | .error e => .error e
           | .ok _ => .ok ())
        else
          match alInsertNew s1.available_batches batch_key ⟨missing, indexKeys⟩ with
          | none => (s1, .error .invalidArgument)
          | some ab =>
            let s2 := { s1 with available_batches := ab }
            match insertDesiredAll s2.desired_tensor_to_batch_map missing batch_key with
            | (dm, some e) =>
              ({ s2 with desired_tensor_to_batch_map := dm }, .error e)
            | (dm, none) =>
              gradFinish { s2 with desired_tensor_to_batch_map := dm } batch_key
    else
      gradFinish s1 batch_key

/-- C10: `UnbatchGradResource::Compute` returns InvalidArgument when the
data tensor is non-empty but the batch-index tensor has zero elements, and
at that point the caller's grad tensor has already been recorded under its
batch key in `available_tensors_`. -/
theorem claim_C10_gradEmptyIndex {T : Type} (s : UnbatchGradState T) (grad : T)
    (batch_key : Int)
    (hfresh : alLookup s.available_tensors batch_key = none) :
    (UnbatchGradCompute s true [] grad batch_key).2 = .error .invalidArgument ∧
    alLookup (UnbatchGradCompute s true [] grad batch_key).1.available_tensors batch_key =
      some grad := by
  have hmem : batch_key ∉ alKeys s.available_tensors :=
    (alLookup_none_iff _ _).mp hfresh
  have hins : alInsertNew s.available_tensors batch_key grad =
      some (s.available_tensors ++ [(batch_key, grad)]) := by
    rw [alInsertNew, if_neg hmem]
  rw [UnbatchGradCompute, hins]
  exact ⟨rfl, alLookup_append_self _ _ _ hmem⟩

/-- Witness for C10: fresh state, grad 7 under key 3, non-empty data, empty
index: InvalidArgument, and the grad is recorded. -/
theorem claim_C10_gradEmptyIndex_witness :
    (UnbatchGradCompute (⟨[], [], []⟩ : UnbatchGradState Int) true [] 7 3).2 =
      .error .invalidArgument ∧
    alLookup (UnbatchGradCompute (⟨[], [], []⟩ : UnbatchGradState Int)
      true [] 7 3).1.available_tensors 3 = some 7 :=
  claim_C10_gradEmptyIndex ⟨[], [], []⟩ 7 3 rfl
